import Mathlib

/-!
Verification development for the quantum-code-quiz repository.

The core of the repository is `generateQuizQuestionsStream` (src/components/QuizCard.tsx,
second document: the Gemini service): an async generator that accumulates raw text
chunks from a streaming source into a buffer, repeatedly splits the buffer at the
first occurrence of the literal delimiter `---QML_QUIZ_DELIMITER---`, trims each
extracted candidate segment, skips empty candidates, attempts `JSON.parse` on the
rest and yields every successfully parsed value (no further shape validation —
the TypeScript `QuizQuestion` annotation is erased at runtime).  After the source
is exhausted, a non-empty trimmed buffer remainder is parsed as one final candidate.

Text is embedded as `List Char`.  The async generator is embedded as a pure
function from the complete list of delivered chunks to the list of emitted
records; the generator is sequential and deterministic, so the emitted sequence
is fully determined by the chunk list.  `JSON.parse` is a JavaScript environment
primitive (not repository code); it is modelled below by `jsonParse`, a fuelled
recursive-descent parser of the JSON grammar in which numbers are kept as their
raw digit text.

The App component (src/unnamed/part_000) supplies the consumer-side logic that
claims C7, C9 and C10 are about: `startQuiz`, `handleAnswer`,
`handleOptionClick`, and the percentage computations of `ProgressBar` and
`ScoreSummary`.  JavaScript number arithmetic in the percentage computations is
modelled by exact rational arithmetic.
-/

/-- Text is embedded as a list of characters. -/
abbrev Str := List Char

/-- Whitespace stripped by JavaScript `String.prototype.trim` (common ASCII set). -/
def isJsWS (c : Char) : Bool :=
  c == ' ' || c == '\t' || c == '\n' || c == '\r' || c == Char.ofNat 11 || c == Char.ofNat 12

/-- Model of `String.prototype.trim`: drop whitespace from both ends. -/
def trimStr (s : Str) : Str :=
  ((s.dropWhile isJsWS).reverse.dropWhile isJsWS).reverse

/-- The test `beginsWith pat s` is true when `pat` is an initial run of `s`
(model of `String.prototype.startsWith`, used to express `indexOf`). -/
def beginsWith : Str → Str → Bool
  | [], _ => true
  | _ :: _, [] => false
  | p :: ps, c :: cs => p == c && beginsWith ps cs

/-- First-occurrence split: `splitFirst d s = some (b, a)` when `s = b ++ d ++ a`
and this is the leftmost occurrence of `d` in `s`; `none` when `d` does not occur.
This embeds the combination `buffer.includes(DELIMITER)` / `buffer.indexOf(DELIMITER)` /
the two `substring` calls of the source loop. -/
def splitFirst (d : Str) : Str → Option (Str × Str)
  | [] => if beginsWith d [] then some ([], []) else none
  | c :: t =>
    if beginsWith d (c :: t) then some ([], (c :: t).drop d.length)
    else (splitFirst d t).map (fun p => (c :: p.1, p.2))

/-- The test `occursIn pat s` is the model of `s.includes(pat)`. -/
def occursIn (d s : Str) : Bool := (splitFirst d s).isSome

/-- The fixed record delimiter of the Gemini service. -/
def DELIMITER : Str := "---QML_QUIZ_DELIMITER---".toList

/-- Fuelled worker for the inner `while (buffer.includes(DELIMITER))` loop.
Each iteration removes the text before the first delimiter plus the delimiter
itself, so the buffer shrinks by at least `DELIMITER.length`; the fuel
`s.length + 1` is always sufficient (`splitLoopGo_fuel` below). -/
def splitLoopGo : Nat → Str → List Str × Str
  | 0, s => ([], s)
  | Nat.succ n, s =>
    match splitFirst DELIMITER s with
    | none => ([], s)
    | some (b, a) =>
      let r := splitLoopGo n a
      (trimStr b :: r.1, r.2)

/-- The inner while loop of the source: extract all delimiter-terminated
candidate segments (already trimmed, in order) and return the leftover buffer. -/
def splitLoop (s : Str) : List Str × Str := splitLoopGo (s.length + 1) s

/-- One iteration of `for await (const chunk of stream)`: append the chunk to the
buffer, then run the inner while loop; candidates accumulate in arrival order. -/
def stepChunk (st : List Str × Str) (chunk : Str) : List Str × Str :=
  let r := splitLoop (st.2 ++ chunk)
  (st.1 ++ r.1, r.2)

/-- State after the whole `for await` loop: all inner candidate segments in
order, and the final buffer content. -/
def runChunks (chunks : List Str) : List Str × Str :=
  chunks.foldl stepChunk ([], [])

/-- Finalization candidate: `if (buffer.trim()) { ... JSON.parse(buffer.trim()) ... }`. -/
def finalCandidate (buf : Str) : List Str :=
  if (trimStr buf).isEmpty then [] else [trimStr buf]

/-- All candidate segments actually handed to `JSON.parse`, in order: the inner
candidates that are non-empty after trimming (`if (jsonString)`) followed by the
finalization candidate if the trimmed leftover buffer is non-empty. -/
def attempts (chunks : List Str) : List Str :=
  ((runChunks chunks).1).filter (fun c => !c.isEmpty) ++ finalCandidate (runChunks chunks).2

/-! ## Model of the JavaScript `JSON.parse` environment primitive -/

/-- The double-quote character. -/
def quoteC : Char := Char.ofNat 34

/-- The backslash character. -/
def backC : Char := Char.ofNat 92

/-- The opening curly-brace character. -/
def lbraceC : Char := Char.ofNat 123

/-- The closing curly-brace character. -/
def rbraceC : Char := Char.ofNat 125

/-- JSON insignificant whitespace (space, tab, line feed, carriage return). -/
def isJsonWS (c : Char) : Bool :=
  c == ' ' || c == '\t' || c == '\n' || c == '\r'

/-- Skip JSON whitespace. -/
def skipWs (s : Str) : Str := s.dropWhile isJsonWS

/-- JSON values.  Numbers are kept as their raw numeral text: no claim depends
on numeric semantics, only on which segments parse and on the parsed structure. -/
inductive Json where
  | null
  | bool (b : Bool)
  | num (raw : Str)
  | str (s : Str)
  | arr (elems : List Json)
  | obj (members : List (Str × Json))

/-- Consume the literal `lit` from the front of `s`. -/
def stripLit (lit s : Str) : Option Str :=
  if beginsWith lit s then some (s.drop lit.length) else none

/-- Value of one hexadecimal digit. -/
def hexVal (c : Char) : Option Nat :=
  let n := c.toNat
  if 48 ≤ n ∧ n ≤ 57 then some (n - 48)
  else if 97 ≤ n ∧ n ≤ 102 then some (n - 87)
  else if 65 ≤ n ∧ n ≤ 70 then some (n - 55)
  else none

/-- Resolve a one-character JSON escape. -/
def unescapeChar (c : Char) : Option Char :=
  if c == quoteC || c == backC || c == '/' then some c
  else if c == 'n' then some (Char.ofNat 10)
  else if c == 't' then some (Char.ofNat 9)
  else if c == 'r' then some (Char.ofNat 13)
  else if c == 'b' then some (Char.ofNat 8)
  else if c == 'f' then some (Char.ofNat 12)
  else none

/-- Read four hexadecimal digits of a `u`-escape. -/
def parseHex4 (s : Str) : Option (Char × Str) :=
  match s with
  | a :: b :: c :: d :: r =>
    match hexVal a, hexVal b, hexVal c, hexVal d with
    | some x, some y, some z, some w =>
      some (Char.ofNat (((x * 16 + y) * 16 + z) * 16 + w), r)
    | _, _, _, _ => none
  | _ => none

/-- Longest digit run at the front of `s`, and the rest. -/
def takeDigits (s : Str) : Str × Str :=
  (s.takeWhile Char.isDigit, s.dropWhile Char.isDigit)

/-- Optional fraction part of a JSON number. -/
def parseFracPart (s : Str) : Option (Str × Str) :=
  match s with
  | c :: r =>
    if c == '.' then
      let p := takeDigits r
      if p.1.isEmpty then none else some (c :: p.1, p.2)
    else some ([], s)
  | [] => some ([], [])

/-- Optional exponent part of a JSON number. -/
def parseExpPart (s : Str) : Option (Str × Str) :=
  match s with
  | c :: r =>
    if c == 'e' || c == 'E' then
      let sr : Str × Str :=
        match r with
        | d :: r2 => if d == '+' || d == '-' then ([d], r2) else ([], r)
        | [] => ([], [])
      let p := takeDigits sr.2
      if p.1.isEmpty then none else some (c :: (sr.1 ++ p.1), p.2)
    else some ([], s)
  | [] => some ([], [])

/-- A JSON number, kept as raw text. -/
def parseNum (s : Str) : Option (Json × Str) :=
  let sr : Str × Str :=
    match s with
    | c :: r => if c == '-' then ([c], r) else ([], s)
    | [] => ([], [])
  let p := takeDigits sr.2
  if p.1.isEmpty then none
  else
    match parseFracPart p.2 with
    | none => none
    | some fr =>
      match parseExpPart fr.2 with
      | none => none
      | some ep => some (Json.num (sr.1 ++ p.1 ++ fr.1 ++ ep.1), ep.2)

mutual

/-- Fuelled recursive-descent JSON value parser. -/
def parseVal : Nat → Str → Option (Json × Str)
  | 0, _ => none
  | Nat.succ n, s0 =>
    match skipWs s0 with
    | [] => none
    | c :: s =>
      if c == 'n' then (stripLit "ull".toList s).map (fun r => (Json.null, r))
      else if c == 't' then (stripLit "rue".toList s).map (fun r => (Json.bool true, r))
      else if c == 'f' then (stripLit "alse".toList s).map (fun r => (Json.bool false, r))
      else if c == quoteC then (parseStrBody n s).map (fun p => (Json.str p.1, p.2))
      else if c == '[' then
        match skipWs s with
        | d :: r =>
          if d == ']' then some (Json.arr [], r)
          else (parseElems n s).map (fun p => (Json.arr p.1, p.2))
        | [] => none
      else if c == lbraceC then
        match skipWs s with
        | d :: r =>
          if d == rbraceC then some (Json.obj [], r)
          else (parseMembers n s).map (fun p => (Json.obj p.1, p.2))
        | [] => none
      else parseNum (c :: s)

/-- Body of a JSON string, after the opening quote. -/
def parseStrBody : Nat → Str → Option (Str × Str)
  | 0, _ => none
  | Nat.succ n, s =>
    match s with
    | [] => none
    | c :: r =>
      if c == quoteC then some ([], r)
      else if c == backC then
        match r with
        | [] => none
        | e :: r2 =>
          if e == 'u' then
            match parseHex4 r2 with
            | none => none
            | some (ch, r3) => (parseStrBody n r3).map (fun p => (ch :: p.1, p.2))
          else
            match unescapeChar e with
            | none => none
            | some ch => (parseStrBody n r2).map (fun p => (ch :: p.1, p.2))
      else (parseStrBody n r).map (fun p => (c :: p.1, p.2))

/-- Array elements, after a first element is known to follow. -/
def parseElems : Nat → Str → Option (List Json × Str)
  | 0, _ => none
  | Nat.succ n, s =>
    match parseVal n s with
    | none => none
    | some (j, r) =>
      match skipWs r with
      | c :: r2 =>
        if c == ',' then (parseElems n r2).map (fun p => (j :: p.1, p.2))
        else if c == ']' then some ([j], r2)
        else none
      | [] => none

/-- Object members, after a first member is known to follow. -/
def parseMembers : Nat → Str → Option (List (Str × Json) × Str)
  | 0, _ => none
  | Nat.succ n, s =>
    match skipWs s with
    | c :: r =>
      if c == quoteC then
        match parseStrBody n r with
        | none => none
        | some (k, r2) =>
          match skipWs r2 with
          | d :: r3 =>
            if d == ':' then
              match parseVal n r3 with
              | none => none
              | some (v, r4) =>
                match skipWs r4 with
                | e :: r5 =>
                  if e == ',' then (parseMembers n r5).map (fun p => ((k, v) :: p.1, p.2))
                  else if e == rbraceC then some ([(k, v)], r5)
                  else none
                | [] => none
            else none
          | [] => none
      else none
    | [] => none

end

/-- Model of the JavaScript `JSON.parse` builtin (an environment primitive, not
repository code): parse one JSON value, allow surrounding whitespace, reject
trailing garbage; `none` models a thrown `SyntaxError`.  The fuel is generous
enough for any input of the given length. -/
def jsonParse (s : Str) : Option Json :=
  match parseVal (2 * s.length + 2) s with
  | some (j, rest) => if (skipWs rest).isEmpty then some j else none
  | none => none

/-- The embedded `generateQuizQuestionsStream`: from the complete list of chunks
delivered by the source to the list of values the generator yields.  Faithful to
the source: every candidate segment that is non-empty after trimming is handed to
`JSON.parse`, whose successful result is yielded as-is (the `QuizQuestion` type
annotation performs no runtime check); a parse failure only logs and continues. -/
def generateQuizQuestionsStream (chunks : List Str) : List Json :=
  (attempts chunks).filterMap jsonParse

/-- Values the generator has yielded strictly before stream end (no finalization):
this is what the consumer has received when the upstream source fails mid-stream,
since the `try` of the generator only guards `JSON.parse`, never the source itself. -/
def innerEmitted (chunks : List Str) : List Json :=
  (((runChunks chunks).1).filter (fun c => !c.isEmpty)).filterMap jsonParse

/-! ## The `QuizQuestion` shape (spec side) and segment concatenation -/

/-- The `QuizQuestion` interface of src/unnamed (types.ts document). -/
structure QuizQuestion where
  question : Str
  code_snippet : Option Str
  options : List Str
  correctAnswer : Str
  explanation : Str

/-- First binding of a key in the member list of a JSON object. -/
def getField : List (Str × Json) → Str → Option Json
  | [], _ => none
  | (k, v) :: ms, key => if k = key then some v else getField ms key

/-- A JSON value that is a string. -/
def asStr : Json → Option Str
  | Json.str s => some s
  | _ => none

/-- A list of JSON values that are all strings. -/
def asStrList : List Json → Option (List Str)
  | [] => some []
  | j :: js =>
    match asStr j with
    | none => none
    | some s => (asStrList js).map (fun l => s :: l)

/-- Modelled from the spec: the structural `QuizQuestion` shape check that §4.1
step (e) describes (required string fields `question`, `correctAnswer`,
`explanation`, required string-array field `options`, optional string field
`code_snippet`).  The source performs no such runtime check — `JSON.parse`'s
result is yielded as-is — so this definition exists only to state claim C2
against the actual behaviour of the code. -/
def toQuizQuestion (j : Json) : Option QuizQuestion :=
  match j with
  | Json.obj ms =>
    match getField ms "question".toList, getField ms "options".toList,
          getField ms "correctAnswer".toList, getField ms "explanation".toList with
    | some q, some o, some ca, some ex =>
      match asStr q, o, asStr ca, asStr ex with
      | some qs, Json.arr os, some cas, some exs =>
        match asStrList os with
        | some osl =>
          match getField ms "code_snippet".toList with
          | none => some ⟨qs, none, osl, cas, exs⟩
          | some cj => (asStr cj).map (fun cs => ⟨qs, some cs, osl, cas, exs⟩)
        | none => none
      | _, _, _, _ => none
    | _, _, _, _ => none
  | _ => none

/-- The text `joinD [s1, ..., sk] = s1 ++ DELIMITER ++ s2 ++ ... ++ DELIMITER ++ sk`:
the canonical text whose delimiter-separated segments are `s1 ... sk`
(the last segment is the trailing non-delimited content). -/
def joinD : List Str → Str
  | [] => []
  | [s] => s
  | s :: rest => s ++ DELIMITER ++ joinD rest

/-! ## The App component (consumer side) -/

/-- The `QuizState` union type of the App component. -/
inductive QuizState where
  | idle
  | loading
  | active
  | finished
  | error
  deriving DecidableEq

/-- The React state of the App component that the claims touch. -/
structure AppState where
  quizState : QuizState
  questions : List Json
  currentQuestionIndex : Nat
  score : Nat
  errorMsg : Option Str
  isKeySet : Bool

/-- The substring that `startQuiz` looks for in a caught error message. -/
def API_KEY_MARKER : Str := "API key not valid".toList

/-- The message `startQuiz` installs on an invalid-credential failure. -/
def INVALID_KEY_MESSAGE : Str :=
  "Your API key appears to be invalid. Please select a new one to continue.".toList

/-- The embedded `startQuiz` of the App component.  `records` is the sequence of
values received from `generateQuizQuestionsStream` before it finished or failed
(each appended to `questions` as it arrived); `failure` is `some msg` when the
iteration ended by a thrown error with message `msg`, `none` on normal
completion.  The catch branch distinguishes the invalid-credential condition by
`errorMessage.includes("API key not valid")` and enters the re-selection path
(`isKeySet := false`, state `idle`) instead of the generic `error` state; the
`questions` list is not touched by either branch. -/
def startQuiz (st : AppState) (records : List Json) (failure : Option Str) : AppState :=
  let st2 : AppState :=
    { st with quizState := QuizState.loading, questions := records,
              currentQuestionIndex := 0, score := 0, errorMsg := none }
  match failure with
  | none => st2
  | some msg =>
    if occursIn API_KEY_MARKER msg then
      { st2 with errorMsg := some INVALID_KEY_MESSAGE, isKeySet := false,
                 quizState := QuizState.idle }
    else
      { st2 with errorMsg := some msg, quizState := QuizState.error }

/-- The embedded `handleAnswer` of the App component. -/
def handleAnswer (score : Nat) (isCorrect : Bool) : Nat :=
  if isCorrect then score + 1 else score

/-- The per-question local state of the QuizCard component. -/
structure CardState where
  selectedOption : Option Str
  isAnswered : Bool

/-- The state the QuizCard `useEffect` installs whenever a new question is shown. -/
def initialCardState : CardState :=
  { selectedOption := none, isAnswered := false }

/-- The embedded `handleOptionClick` of QuizCard, composed with the App's
`onAnswer` callback (`handleAnswer`): a click on an already-answered card
returns unchanged; the first click selects the option, sets the answered flag
and updates the score through `handleAnswer`. -/
def handleOptionClick (correctAnswer : Str) (st : CardState × Nat) (option : Str) :
    CardState × Nat :=
  if st.1.isAnswered then st
  else ({ selectedOption := some option, isAnswered := true },
        handleAnswer st.2 (option == correctAnswer))

/-- A sequence of option clicks on one displayed question. -/
def processClicks (correctAnswer : Str) (clicks : List Str) (init : CardState × Nat) :
    CardState × Nat :=
  clicks.foldl (handleOptionClick correctAnswer) init

/-- A whole quiz run: for each question (given by its correct answer and the
list of clicks it receives) the card state is reset to `initialCardState`
(the QuizCard `useEffect`) and the clicks are processed; the score carries over. -/
def runQuiz (score0 : Nat) (rounds : List (Str × List Str)) : Nat :=
  rounds.foldl (fun sc r => (processClicks r.1 r.2 (initialCardState, sc)).2) score0

/-- The percentage computation of the `ProgressBar` helper component:
`max > 0 ? (value / max) * 100 : 0`, with JavaScript numbers modelled by
exact rationals. -/
def progressBarPercentage (value max : Rat) : Rat :=
  if 0 < max then value / max * 100 else 0

/-- The percentage computation of the `ScoreSummary` helper component:
`total > 0 ? Math.round((score / total) * 100) : 0`; `Math.round` (half up)
coincides with the Mathlib `round` on rationals. -/
def scoreSummaryPercentage (score total : Rat) : Int :=
  if 0 < total then round (score / total * 100) else 0

/-! ## Basic lemmas about `beginsWith` and `splitFirst` -/

theorem beginsWith_iff (d s : Str) : beginsWith d s = true ↔ ∃ r, s = d ++ r := by
  induction d generalizing s with
  | nil =>
    simp only [beginsWith, List.nil_append, true_iff]
    exact ⟨s, rfl⟩
  | cons p ps ih =>
    cases s with
    | nil =>
      simp [beginsWith]
    | cons c cs =>
      constructor
      · intro h
        simp only [beginsWith, Bool.and_eq_true, beq_iff_eq] at h
        obtain ⟨hpc, hb⟩ := h
        obtain ⟨r, hr⟩ := (ih cs).mp hb
        exact ⟨r, by rw [List.cons_append, hpc, hr]⟩
      · rintro ⟨r, hr⟩
        rw [List.cons_append] at hr
        injection hr with h1 h2
        simp only [beginsWith, Bool.and_eq_true, beq_iff_eq]
        exact ⟨h1.symm, (ih cs).mpr ⟨r, h2⟩⟩

theorem splitFirst_some {d s b a : Str} (h : splitFirst d s = some (b, a)) :
    s = b ++ d ++ a := by
  induction s generalizing b a with
  | nil =>
    rw [splitFirst] at h
    split at h
    · next hbw =>
      obtain ⟨r, hr⟩ := (beginsWith_iff d []).mp hbw
      rcases List.append_eq_nil.mp hr.symm with ⟨hd, hr2⟩
      injection h with h
      injection h with hb ha
      subst hb; subst ha; subst hd
      rfl
    · exact absurd h (by simp)
  | cons c t ih =>
    rw [splitFirst] at h
    split at h
    · next hbw =>
      obtain ⟨r, hr⟩ := (beginsWith_iff d (c :: t)).mp hbw
      injection h with h
      injection h with hb ha
      subst hb
      rw [hr, List.drop_left] at ha
      subst ha
      simpa using hr
    · next hbw =>
      cases hsp : splitFirst d t with
      | none => rw [hsp] at h; exact absurd h (by simp)
      | some p =>
        rw [hsp] at h
        injection h with h
        injection h with hb ha
        have ht := ih (b := p.1) (a := p.2) (by rw [hsp])
        subst hb; subst ha
        simp [ht]

theorem splitFirst_isSome_of_beginsWith {d s : Str} (h : beginsWith d s = true) :
    (splitFirst d s).isSome = true := by
  cases s with
  | nil => simp [splitFirst, h]
  | cons c t => simp [splitFirst, h]

theorem occursIn_iff (d s : Str) : occursIn d s = true ↔ ∃ b a, s = b ++ d ++ a := by
  constructor
  · intro h
    unfold occursIn at h
    cases hsp : splitFirst d s with
    | none => rw [hsp] at h; exact absurd h (by simp)
    | some p => exact ⟨p.1, p.2, splitFirst_some (by rw [hsp])⟩
  · rintro ⟨b, a, rfl⟩
    unfold occursIn
    induction b with
    | nil =>
      exact splitFirst_isSome_of_beginsWith
        ((beginsWith_iff d _).mpr ⟨a, by simp⟩)
    | cons x b ih =>
      have hshape : (x :: b) ++ d ++ a = x :: (b ++ d ++ a) := by simp
      rw [hshape]
      by_cases hbw : beginsWith d (x :: (b ++ d ++ a)) = true
      · exact splitFirst_isSome_of_beginsWith hbw
      · rw [splitFirst, if_neg hbw]
        cases hsp : splitFirst d (b ++ d ++ a) with
        | none => rw [hsp] at ih; simp at ih
        | some p => simp [hsp]

theorem occursIn_false_none {d s : Str} (h : occursIn d s = false) :
    splitFirst d s = none := by
  unfold occursIn at h
  cases hsp : splitFirst d s with
  | none => rfl
  | some p => rw [hsp] at h; simp at h

theorem occursIn_append_of_occursIn {d s u : Str} (h : occursIn d s = true) :
    occursIn d (s ++ u) = true := by
  obtain ⟨b, a, rfl⟩ := (occursIn_iff d s).mp h
  exact (occursIn_iff d _).mpr ⟨b, a ++ u, by simp⟩

theorem occursIn_cons_of_occursIn {d s : Str} {c : Char} (h : occursIn d s = true) :
    occursIn d (c :: s) = true := by
  obtain ⟨b, a, rfl⟩ := (occursIn_iff d s).mp h
  exact (occursIn_iff d _).mpr ⟨c :: b, a, by simp⟩

theorem splitFirst_min {d s b a : Str} (h : splitFirst d s = some (b, a)) :
    ∀ b2 a2, s = b2 ++ d ++ a2 → b.length ≤ b2.length := by
  induction s generalizing b a with
  | nil =>
    intro b2 a2 _
    rw [splitFirst] at h
    split at h
    · injection h with h
      injection h with hb _
      subst hb
      simp
    · exact absurd h (by simp)
  | cons c t ih =>
    intro b2 a2 h2
    rw [splitFirst] at h
    split at h
    · injection h with h
      injection h with hb _
      subst hb
      simp
    · next hbw =>
      cases hsp : splitFirst d t with
      | none => rw [hsp] at h; exact absurd h (by simp)
      | some p =>
        rw [hsp] at h
        injection h with h
        injection h with hb _
        subst hb
        cases b2 with
        | nil =>
          exact absurd ((beginsWith_iff d (c :: t)).mpr ⟨a2, by simpa using h2⟩) hbw
        | cons x b2' =>
          simp only [List.cons_append] at h2
          injection h2 with _ h2t
          have hle := ih (b := p.1) (a := p.2) (by rw [hsp]) b2' a2 (by simpa using h2t)
          simpa using hle

theorem splitFirst_append_some {d s b a : Str} (hd : d ≠ []) (u : Str)
    (h : splitFirst d s = some (b, a)) :
    splitFirst d (s ++ u) = some (b, a ++ u) := by
  induction s generalizing b a with
  | nil =>
    rw [splitFirst] at h
    split at h
    · next hbw =>
      obtain ⟨r, hr⟩ := (beginsWith_iff d []).mp hbw
      exact absurd (List.append_eq_nil.mp hr.symm).1 hd
    · exact absurd h (by simp)
  | cons c t ih =>
    rw [splitFirst] at h
    split at h
    · next hbw =>
      injection h with h
      injection h with hb ha
      obtain ⟨r, hr⟩ := (beginsWith_iff d (c :: t)).mp hbw
      have hlen : d.length ≤ (c :: t).length := by rw [hr]; simp
      have hbw2 : beginsWith d (c :: (t ++ u)) = true :=
        (beginsWith_iff d _).mpr ⟨r ++ u, by rw [show (c : Char) :: (t ++ u) = (c :: t) ++ u by simp, hr]; simp⟩
      rw [show (c :: t) ++ u = c :: (t ++ u) by simp]
      rw [splitFirst, if_pos hbw2]
      subst hb; subst ha
      rw [show (c : Char) :: (t ++ u) = (c :: t) ++ u by simp,
          List.drop_append_of_le_length hlen]
    · next hbw =>
      cases hsp : splitFirst d t with
      | none => rw [hsp] at h; exact absurd h (by simp)
      | some p =>
        rw [hsp] at h
        injection h with h
        injection h with hb ha
        have hdt : t = p.1 ++ d ++ p.2 := splitFirst_some (by rw [hsp])
        have hdl2 : d.length ≤ (c :: t).length := by
          have hlt : d.length ≤ t.length := by
            rw [hdt]; simp only [List.length_append]; omega
          simp only [List.length_cons]; omega
        have hbw2 : ¬ beginsWith d (c :: (t ++ u)) = true := by
          intro hcon
          obtain ⟨r, hr⟩ := (beginsWith_iff d _).mp hcon
          have htake : ((c :: t) ++ u).take d.length = d := by
            rw [show (c :: t) ++ u = c :: (t ++ u) by simp, hr, List.take_left]
          rw [List.take_append_of_le_length hdl2] at htake
          have hdecomp : c :: t = d ++ (c :: t).drop d.length := by
            conv_lhs => rw [← List.take_append_drop d.length (c :: t)]
            rw [htake]
          exact hbw ((beginsWith_iff d (c :: t)).mpr ⟨(c :: t).drop d.length, hdecomp⟩)
        rw [show (c :: t) ++ u = c :: (t ++ u) by simp]
        rw [splitFirst, if_neg hbw2]
        rw [ih (by rw [hsp])]
        subst hb; subst ha
        rfl

theorem splitFirst_front {d : Str} (hd : d ≠ []) :
    ∀ s r, occursIn d (s ++ d.dropLast) = false →
      splitFirst d (s ++ d ++ r) = some (s, r) := by
  intro s
  induction s with
  | nil =>
    intro r _
    cases d with
    | nil => exact absurd rfl hd
    | cons x ds =>
      have hbw : beginsWith (x :: ds) (x :: (ds ++ r)) = true := by
        refine (beginsWith_iff (x :: ds) _).mpr ⟨r, ?_⟩
        simp
      rw [show ([] : Str) ++ (x :: ds) ++ r = x :: (ds ++ r) by simp]
      rw [splitFirst, if_pos hbw]
      have hdrop : (x :: (ds ++ r)).drop (x :: ds).length = r := by
        simp
      rw [hdrop]
  | cons c t ih =>
    intro r hocc
    rcases List.eq_nil_or_concat d with hnil | ⟨d0, x, hd0⟩
    · exact absurd hnil hd
    rw [List.concat_eq_append] at hd0
    have hdrop0 : d.dropLast = d0 := by rw [hd0]; exact List.dropLast_concat
    have hbw : ¬ beginsWith d (c :: (t ++ (d ++ r))) = true := by
      intro hcon
      obtain ⟨r2, hr2⟩ := (beginsWith_iff d _).mp hcon
      have hlen : d.length ≤ ((c :: t) ++ d0).length := by
        rw [hd0]
        simp only [List.length_append, List.length_cons, List.length_nil]
        omega
      have heq : (c : Char) :: (t ++ (d ++ r)) = ((c :: t) ++ d0) ++ (x :: r) := by
        rw [hd0]; simp
      have htake : (((c :: t) ++ d0) ++ (x :: r)).take d.length = d := by
        rw [← heq, hr2, List.take_left]
      rw [List.take_append_of_le_length hlen] at htake
      have hdecomp : (c :: t) ++ d0 = d ++ ((c :: t) ++ d0).drop d.length := by
        conv_lhs => rw [← List.take_append_drop d.length ((c :: t) ++ d0)]
        rw [htake]
      have hoc2 : occursIn d ((c :: t) ++ d0) = true :=
        (occursIn_iff d _).mpr ⟨[], ((c :: t) ++ d0).drop d.length, by simpa using hdecomp⟩
      rw [hdrop0] at hocc
      rw [hocc] at hoc2
      exact absurd hoc2 (by simp)
    have hocc_t : occursIn d (t ++ d.dropLast) = false := by
      cases hot : occursIn d (t ++ d.dropLast) with
      | false => rfl
      | true =>
        have := occursIn_cons_of_occursIn (c := c) hot
        rw [show (c : Char) :: (t ++ d.dropLast) = (c :: t) ++ d.dropLast by simp] at this
        rw [hocc] at this
        exact absurd this (by simp)
    have ihr := ih r hocc_t
    rw [show (c :: t) ++ d ++ r = c :: (t ++ (d ++ r)) by simp]
    rw [splitFirst, if_neg hbw]
    rw [show t ++ (d ++ r) = t ++ d ++ r by simp, ihr]
    rfl

/-! ## The inner while loop and the chunk fold -/

theorem DELIMITER_ne_nil : DELIMITER ≠ [] := by decide

theorem splitFirst_some_length {s b a : Str} (h : splitFirst DELIMITER s = some (b, a)) :
    a.length < s.length := by
  have hs := splitFirst_some h
  have hD : 0 < DELIMITER.length := by decide
  rw [hs]
  simp only [List.length_append]
  omega

theorem splitLoopGo_fuel : ∀ n m s, s.length < n → s.length < m →
    splitLoopGo n s = splitLoopGo m s := by
  intro n
  induction n with
  | zero =>
    intro m s hn _
    exact absurd hn (Nat.not_lt_zero _)
  | succ n ih =>
    intro m s hn hm
    cases m with
    | zero => exact absurd hm (Nat.not_lt_zero _)
    | succ m =>
      cases hsp : splitFirst DELIMITER s with
      | none => simp only [splitLoopGo, hsp]
      | some p =>
        obtain ⟨b, a⟩ := p
        have hl : a.length < s.length := splitFirst_some_length hsp
        simp only [splitLoopGo, hsp]
        rw [ih m a (by omega) (by omega)]

theorem splitLoop_eq (s : Str) :
    splitLoop s =
      match splitFirst DELIMITER s with
      | none => ([], s)
      | some (b, a) => (trimStr b :: (splitLoop a).1, (splitLoop a).2) := by
  cases hsp : splitFirst DELIMITER s with
  | none =>
    show splitLoopGo (s.length + 1) s = ([], s)
    simp only [splitLoopGo, hsp]
  | some p =>
    obtain ⟨b, a⟩ := p
    have hl : a.length < s.length := splitFirst_some_length hsp
    show splitLoopGo (s.length + 1) s = (trimStr b :: (splitLoop a).1, (splitLoop a).2)
    simp only [splitLoopGo, hsp]
    rw [splitLoopGo_fuel s.length (a.length + 1) a hl (Nat.lt_succ_self _)]
    rfl

theorem splitLoop_none {s : Str} (h : splitFirst DELIMITER s = none) :
    splitLoop s = ([], s) := by
  rw [splitLoop_eq, h]

theorem splitLoop_some {s b a : Str} (h : splitFirst DELIMITER s = some (b, a)) :
    splitLoop s = (trimStr b :: (splitLoop a).1, (splitLoop a).2) := by
  rw [splitLoop_eq, h]

theorem splitLoop_buffer : ∀ n s, s.length ≤ n →
    splitFirst DELIMITER (splitLoop s).2 = none := by
  intro n
  induction n with
  | zero =>
    intro s hs
    have hnil : s = [] := List.eq_nil_of_length_eq_zero (Nat.le_zero.mp hs)
    subst hnil
    rw [splitLoop_none (by decide)]
    decide
  | succ n ih =>
    intro s hs
    cases hsp : splitFirst DELIMITER s with
    | none => rw [splitLoop_none hsp]; exact hsp
    | some p =>
      obtain ⟨b, a⟩ := p
      have hl : a.length < s.length := splitFirst_some_length hsp
      rw [splitLoop_some hsp]
      exact ih a (by omega)

theorem splitLoop_buffer_none (s : Str) : splitFirst DELIMITER (splitLoop s).2 = none :=
  splitLoop_buffer s.length s le_rfl

theorem splitLoop_append_aux : ∀ n s, s.length ≤ n → ∀ u,
    splitLoop (s ++ u) =
      ((splitLoop s).1 ++ (splitLoop ((splitLoop s).2 ++ u)).1,
       (splitLoop ((splitLoop s).2 ++ u)).2) := by
  intro n
  induction n with
  | zero =>
    intro s hs u
    have hnil : s = [] := List.eq_nil_of_length_eq_zero (Nat.le_zero.mp hs)
    subst hnil
    have h0 : splitFirst DELIMITER ([] : Str) = none := by decide
    rw [splitLoop_none h0]
    simp
  | succ n ih =>
    intro s hs u
    cases hsp : splitFirst DELIMITER s with
    | none =>
      rw [splitLoop_none hsp]
      simp
    | some p =>
      obtain ⟨b, a⟩ := p
      have hsp2 : splitFirst DELIMITER (s ++ u) = some (b, a ++ u) :=
        splitFirst_append_some DELIMITER_ne_nil u hsp
      have hl : a.length < s.length := splitFirst_some_length hsp
      rw [splitLoop_some hsp2, splitLoop_some hsp]
      have iha := ih a (by omega) u
      simp [iha]

theorem splitLoop_append (s u : Str) :
    splitLoop (s ++ u) =
      ((splitLoop s).1 ++ (splitLoop ((splitLoop s).2 ++ u)).1,
       (splitLoop ((splitLoop s).2 ++ u)).2) :=
  splitLoop_append_aux s.length s le_rfl u

theorem foldl_stepChunk : ∀ (chunks : List Str) (cs : List Str) (buf : Str),
    splitFirst DELIMITER buf = none →
    chunks.foldl stepChunk (cs, buf) =
      (cs ++ (splitLoop (buf ++ chunks.flatten)).1, (splitLoop (buf ++ chunks.flatten)).2) := by
  intro chunks
  induction chunks with
  | nil =>
    intro cs buf h
    simp [splitLoop_none h]
  | cons ch rest ih =>
    intro cs buf h
    simp only [List.foldl_cons, List.flatten_cons]
    rw [show stepChunk (cs, buf) ch =
          (cs ++ (splitLoop (buf ++ ch)).1, (splitLoop (buf ++ ch)).2) from rfl]
    rw [ih _ _ (splitLoop_buffer_none (buf ++ ch))]
    rw [show buf ++ (ch ++ rest.flatten) = (buf ++ ch) ++ rest.flatten by simp]
    rw [splitLoop_append (buf ++ ch) rest.flatten]
    simp

theorem runChunks_eq (chunks : List Str) : runChunks chunks = splitLoop chunks.flatten := by
  unfold runChunks
  rw [foldl_stepChunk chunks [] [] (by decide)]
  simp

/-! ## Characterization on delimiter-separated segment lists -/

theorem joinD_cons {s : Str} {rest : List Str} (h : rest ≠ []) :
    joinD (s :: rest) = s ++ DELIMITER ++ joinD rest := by
  cases rest with
  | nil => exact absurd rfl h
  | cons r rs => rfl

theorem splitLoop_joinD : ∀ (ss : List Str) (t : Str),
    (∀ s ∈ ss, occursIn DELIMITER (s ++ DELIMITER.dropLast) = false) →
    occursIn DELIMITER t = false →
    splitLoop (joinD (ss ++ [t])) = (ss.map trimStr, t) := by
  intro ss
  induction ss with
  | nil =>
    intro t _ ht
    rw [show ([] : List Str) ++ [t] = [t] from rfl, show joinD [t] = t from rfl]
    exact splitLoop_none (occursIn_false_none ht)
  | cons s ss ih =>
    intro t hss ht
    have hne : ss ++ [t] ≠ [] := by simp
    rw [show (s :: ss) ++ [t] = s :: (ss ++ [t]) by simp]
    rw [joinD_cons hne]
    have hs : occursIn DELIMITER (s ++ DELIMITER.dropLast) = false := hss s (by simp)
    have hsp : splitFirst DELIMITER (s ++ DELIMITER ++ joinD (ss ++ [t])) =
        some (s, joinD (ss ++ [t])) :=
      splitFirst_front DELIMITER_ne_nil s (joinD (ss ++ [t])) hs
    rw [splitLoop_some hsp]
    rw [ih t (fun x hx => hss x (by simp [hx])) ht]
    rfl

theorem filter_singleton_finalCandidate (t : Str) :
    List.filter (fun c => !c.isEmpty) [trimStr t] = finalCandidate t := by
  unfold finalCandidate
  cases h : (trimStr t).isEmpty with
  | false => simp [List.filter, h]
  | true => simp [List.filter, h]

theorem attempts_joinD {chunks segs : List Str}
    (hj : chunks.flatten = joinD segs)
    (ho : ∀ s ∈ segs, occursIn DELIMITER (s ++ DELIMITER.dropLast) = false) :
    attempts chunks = (segs.map trimStr).filter (fun c => !c.isEmpty) := by
  rcases List.eq_nil_or_concat segs with rfl | ⟨ss, t, hst⟩
  · unfold attempts
    rw [runChunks_eq, hj]
    rfl
  · rw [List.concat_eq_append] at hst
    subst hst
    have ht : occursIn DELIMITER t = false := by
      have h1 := ho t (by simp)
      cases h2 : occursIn DELIMITER t with
      | false => rfl
      | true =>
        have h3 := occursIn_append_of_occursIn (u := DELIMITER.dropLast) h2
        rw [h1] at h3
        exact absurd h3 (by simp)
    unfold attempts
    rw [runChunks_eq, hj]
    rw [splitLoop_joinD ss t (fun x hx => ho x (by simp [hx])) ht]
    rw [List.map_append, List.filter_append]
    simp only [List.map_cons, List.map_nil]
    rw [filter_singleton_finalCandidate]

theorem length_filterMap_of_isSome {α β : Type} {f : α → Option β} :
    ∀ l : List α, (∀ x ∈ l, (f x).isSome = true) → (l.filterMap f).length = l.length := by
  intro l
  induction l with
  | nil => simp
  | cons x xs ih =>
    intro h
    have hx := h x (by simp)
    cases hfx : f x with
    | none => rw [hfx] at hx; simp at hx
    | some b =>
      rw [List.filterMap_cons, hfx]
      simp only [List.length_cons]
      rw [ih (fun y hy => h y (by simp [hy]))]

theorem filter_all_nonempty : ∀ l : List Str, (∀ s ∈ l, s.isEmpty = false) →
    l.filter (fun c => !c.isEmpty) = l := by
  intro l
  induction l with
  | nil => intro _; rfl
  | cons x xs ih =>
    intro h
    have hx := h x (by simp)
    rw [List.filter_cons]
    simp only [hx, Bool.not_false, if_pos]
    rw [ih (fun y hy => h y (by simp [hy]))]

theorem filterMap_filter_isEmpty (g : Str → Option Json) :
    ∀ l : List Str, (l.filter (fun c => !c.isEmpty)).filterMap g =
      l.filterMap (fun c => if c.isEmpty then none else g c) := by
  intro l
  induction l with
  | nil => rfl
  | cons x xs ih =>
    by_cases hx : x = []
    · subst hx
      simp [List.filter_cons, List.filterMap_cons, ih]
    · have hx2 : x.isEmpty = false := by
        cases x with
        | nil => exact absurd rfl hx
        | cons a as => rfl
      simp [List.filter_cons, List.filterMap_cons, hx2, ih, hx]

/-! ## Claims -/

/-- C1: For every chunk sequence whose concatenation consists of N
delimiter-separated segments (formalized: the concatenation is `joinD segs`
and the delimiter occurs in the text only at the N-1 separator positions) of
which exactly one (`bad`) fails `JSON.parse` while the other N-1 parse
successfully, the generator emits exactly N-1 records: the bad segment's
records are absent, nothing is raised to the consumer, and the records of the
segments after the bad one are still emitted in order. -/
theorem C1_fault_isolation (chunks as bs : List Str) (bad : Str)
    (hj : chunks.flatten = joinD (as ++ bad :: bs))
    (ho : ∀ s ∈ as ++ bad :: bs, occursIn DELIMITER (s ++ DELIMITER.dropLast) = false)
    (ha : ∀ s ∈ as ++ bs, (trimStr s).isEmpty = false ∧ (jsonParse (trimStr s)).isSome = true)
    (hbadne : (trimStr bad).isEmpty = false)
    (hbad : jsonParse (trimStr bad) = none) :
    generateQuizQuestionsStream chunks =
      (as.map trimStr).filterMap jsonParse ++ (bs.map trimStr).filterMap jsonParse ∧
    (generateQuizQuestionsStream chunks).length = as.length + bs.length := by
  have hatt := attempts_joinD hj ho
  unfold generateQuizQuestionsStream
  rw [hatt]
  rw [List.map_append, List.map_cons, List.filter_append, List.filter_cons]
  have hbne : (!(trimStr bad).isEmpty) = true := by rw [hbadne]; rfl
  rw [if_pos hbne]
  have hfa : ∀ s ∈ as.map trimStr, s.isEmpty = false := by
    intro s hs
    obtain ⟨x, hx, rfl⟩ := List.mem_map.mp hs
    exact (ha x (List.mem_append_left _ hx)).1
  have hfb : ∀ s ∈ bs.map trimStr, s.isEmpty = false := by
    intro s hs
    obtain ⟨x, hx, rfl⟩ := List.mem_map.mp hs
    exact (ha x (List.mem_append_right _ hx)).1
  rw [filter_all_nonempty _ hfa, filter_all_nonempty _ hfb]
  rw [List.filterMap_append, List.filterMap_cons, hbad]
  constructor
  · rfl
  · rw [List.length_append]
    rw [length_filterMap_of_isSome _ (fun x hx => by
      obtain ⟨y, hy, rfl⟩ := List.mem_map.mp hx
      exact (ha y (List.mem_append_left _ hy)).2)]
    rw [length_filterMap_of_isSome _ (fun x hx => by
      obtain ⟨y, hy, rfl⟩ := List.mem_map.mp hx
      exact (ha y (List.mem_append_right _ hy)).2)]
    simp

/-- Witness for C1 at a concrete input: segments `1`, `x`, `2`, of which `x`
fails to parse; exactly the two numeric records are emitted. -/
theorem C1_fault_isolation_witness :
    generateQuizQuestionsStream
        ["1---QML_QUIZ_DELIMITER---x---QML_QUIZ_DELIMITER---2".toList] =
      ((["1".toList] : List Str).map trimStr).filterMap jsonParse ++
        ((["2".toList] : List Str).map trimStr).filterMap jsonParse ∧
    (generateQuizQuestionsStream
        ["1---QML_QUIZ_DELIMITER---x---QML_QUIZ_DELIMITER---2".toList]).length = 1 + 1 :=
  C1_fault_isolation ["1---QML_QUIZ_DELIMITER---x---QML_QUIZ_DELIMITER---2".toList]
    ["1".toList] ["2".toList] "x".toList
    (by decide) (by decide) (by decide) (by decide) (by rfl)

/-- C2 (counterexample): the claim says a well-formed segment lacking required
`QuizQuestion` fields is never emitted.  But the source yields `JSON.parse`'s
result with no shape check: the segment `\x7b\x7d` (an empty JSON object) is
emitted even though it has none of the required fields. -/
theorem C2_no_shape_check_counterexample :
    generateQuizQuestionsStream ["\x7b\x7d---QML_QUIZ_DELIMITER---".toList] = [Json.obj []] ∧
    toQuizQuestion (Json.obj []) = none :=
  ⟨rfl, rfl⟩

/-- C2 (amended): each candidate segment that is non-empty after trimming is
handed to `JSON.parse`; on parse failure nothing is emitted for that segment;
every successful parse result is emitted as-is, with no `QuizQuestion` shape
validation (so a valid-JSON segment lacking required fields is also emitted). -/
theorem C2_parse_without_validation (chunks segs : List Str)
    (hj : chunks.flatten = joinD segs)
    (ho : ∀ s ∈ segs, occursIn DELIMITER (s ++ DELIMITER.dropLast) = false) :
    generateQuizQuestionsStream chunks =
      ((segs.map trimStr).filter (fun c => !c.isEmpty)).filterMap jsonParse := by
  unfold generateQuizQuestionsStream
  rw [attempts_joinD hj ho]

/-- Witness for the amended C2 at a concrete input. -/
theorem C2_parse_without_validation_witness :
    generateQuizQuestionsStream ["null---QML_QUIZ_DELIMITER---xyz".toList] =
      (((["null".toList, "xyz".toList] : List Str).map trimStr).filter
        (fun c => !c.isEmpty)).filterMap jsonParse :=
  C2_parse_without_validation ["null---QML_QUIZ_DELIMITER---xyz".toList]
    ["null".toList, "xyz".toList] (by decide) (by decide)

/-- C3: for any chunk sequence whose concatenation is k delimiter-separated
segments `ss` followed by trailing non-delimited content `t` (the delimiter
occurring only at the separator positions), the parse attempts are exactly the
non-empty-after-trim segments of `ss` plus one final attempt if `t` is
non-empty after trimming — independent of chunk boundaries; a candidate
segment that is empty after trimming is skipped (it appears in no attempt,
hence produces no record and no error).  When all k segments are non-empty
after trimming the attempt count is exactly `k` (+1 for non-empty trailing). -/
theorem C3_segment_extraction (chunks ss : List Str) (t : Str)
    (hj : chunks.flatten = joinD (ss ++ [t]))
    (ho : ∀ s ∈ ss ++ [t], occursIn DELIMITER (s ++ DELIMITER.dropLast) = false) :
    attempts chunks =
      (ss.map trimStr).filter (fun c => !c.isEmpty) ++
        (if (trimStr t).isEmpty then [] else [trimStr t]) ∧
    ((∀ s ∈ ss, (trimStr s).isEmpty = false) →
      (attempts chunks).length = ss.length + (if (trimStr t).isEmpty then 0 else 1)) := by
  have hatt := attempts_joinD hj ho
  rw [hatt, List.map_append, List.filter_append]
  simp only [List.map_cons, List.map_nil]
  rw [filter_singleton_finalCandidate]
  constructor
  · unfold finalCandidate
    rfl
  · intro hne
    have hfa : ∀ s ∈ ss.map trimStr, s.isEmpty = false := by
      intro s hs
      obtain ⟨x, hx, rfl⟩ := List.mem_map.mp hs
      exact hne x hx
    rw [filter_all_nonempty _ hfa, List.length_append, List.length_map]
    unfold finalCandidate
    cases h : (trimStr t).isEmpty with
    | true => simp
    | false => simp

/-- Witness for C3 at a concrete input (one inner segment, non-empty trailing
content, delimiter split across two chunks). -/
theorem C3_segment_extraction_witness :
    attempts ["1---QML_QUIZ".toList, "_DELIMITER---2".toList] =
      ((["1".toList] : List Str).map trimStr).filter (fun c => !c.isEmpty) ++
        (if (trimStr "2".toList).isEmpty then [] else [trimStr "2".toList]) ∧
    (attempts ["1---QML_QUIZ".toList, "_DELIMITER---2".toList]).length =
      1 + (if (trimStr "2".toList).isEmpty then 0 else 1) := by
  have h := C3_segment_extraction ["1---QML_QUIZ".toList, "_DELIMITER---2".toList]
    ["1".toList] "2".toList (by decide) (by decide)
  exact ⟨h.1, h.2 (by decide)⟩

/-- C4: the emitted record sequence depends only on the concatenation of the
chunks, not on how it is cut into chunks — including a delimiter occurrence
split across a chunk boundary. -/
theorem C4_chunk_boundary_independence (chunks1 chunks2 : List Str)
    (h : chunks1.flatten = chunks2.flatten) :
    generateQuizQuestionsStream chunks1 = generateQuizQuestionsStream chunks2 := by
  unfold generateQuizQuestionsStream attempts
  rw [runChunks_eq, runChunks_eq, h]

/-- Witness for C4: one chunk versus two chunks cutting the delimiter in the
middle. -/
theorem C4_chunk_boundary_independence_witness :
    generateQuizQuestionsStream ["1---QML_QUIZ_DELIMITER---2".toList] =
      generateQuizQuestionsStream ["1---QML_QU".toList, "IZ_DELIMITER---2".toList] :=
  C4_chunk_boundary_independence ["1---QML_QUIZ_DELIMITER---2".toList]
    ["1---QML_QU".toList, "IZ_DELIMITER---2".toList] (by decide)

/-- C5: order preservation and single-parse.  First conjunct: the delimiter
split used by the loop always takes the leftmost occurrence (it yields a
decomposition whose before-part is of minimal length among all decompositions).
Second conjunct: under the segment decomposition of the concatenated stream,
the emitted records are exactly the in-order `filterMap` of the segments —
each segment is parsed at most once, contributes at most one record, and the
records appear in segment order. -/
theorem C5_order_preservation :
    (∀ d s b a : Str, splitFirst d s = some (b, a) →
      s = b ++ d ++ a ∧ ∀ b2 a2, s = b2 ++ d ++ a2 → b.length ≤ b2.length) ∧
    (∀ chunks segs : List Str, chunks.flatten = joinD segs →
      (∀ s ∈ segs, occursIn DELIMITER (s ++ DELIMITER.dropLast) = false) →
      generateQuizQuestionsStream chunks =
        segs.filterMap (fun s => if (trimStr s).isEmpty then none
                                 else jsonParse (trimStr s))) := by
  constructor
  · intro d s b a h
    exact ⟨splitFirst_some h, splitFirst_min h⟩
  · intro chunks segs hj ho
    unfold generateQuizQuestionsStream
    rw [attempts_joinD hj ho, filterMap_filter_isEmpty]
    rw [List.filterMap_map]
    rfl

/-- Witness for C5: minimality of the first split on `ab`/`b`, and the record
order on a concrete two-segment stream. -/
theorem C5_order_preservation_witness :
    ("ab".toList = "a".toList ++ "b".toList ++ [] ∧
      ∀ b2 a2, "ab".toList = b2 ++ "b".toList ++ a2 → ("a".toList).length ≤ b2.length) ∧
    generateQuizQuestionsStream ["1---QML_QUIZ_DELIMITER---2".toList] =
      (["1".toList, "2".toList] : List Str).filterMap
        (fun s => if (trimStr s).isEmpty then none else jsonParse (trimStr s)) := by
  constructor
  · exact C5_order_preservation.1 "b".toList "ab".toList "a".toList [] (by decide)
  · exact C5_order_preservation.2 ["1---QML_QUIZ_DELIMITER---2".toList]
      ["1".toList, "2".toList] (by decide) (by decide)

/-- C6: finalization and the empty stream.  A completely empty stream yields
zero records and zero parse attempts.  When the source is exhausted and the
leftover buffer (the trailing segment `t`) is non-empty after trimming, its
whole trimmed content is one final candidate with the same handling as inner
segments: its parse result (`Option.toList`: one record on success, nothing on
failure) is appended after the inner records. -/
theorem C6_finalization_and_empty_stream :
    (generateQuizQuestionsStream [] = [] ∧ attempts [] = []) ∧
    (∀ (chunks ss : List Str) (t : Str), chunks.flatten = joinD (ss ++ [t]) →
      (∀ s ∈ ss ++ [t], occursIn DELIMITER (s ++ DELIMITER.dropLast) = false) →
      (trimStr t).isEmpty = false →
      generateQuizQuestionsStream chunks =
        ((ss.map trimStr).filter (fun c => !c.isEmpty)).filterMap jsonParse ++
          (jsonParse (trimStr t)).toList) := by
  constructor
  · exact ⟨rfl, rfl⟩
  · intro chunks ss t hj ho htne
    unfold generateQuizQuestionsStream
    rw [attempts_joinD hj ho]
    rw [List.map_append, List.filter_append]
    simp only [List.map_cons, List.map_nil]
    rw [filter_singleton_finalCandidate]
    rw [List.filterMap_append]
    congr 1
    unfold finalCandidate
    rw [if_neg (by rw [htne]; exact Bool.false_ne_true)]
    cases hp : jsonParse (trimStr t) with
    | none => simp [List.filterMap, hp]
    | some j => simp [List.filterMap, hp]

/-- Witness for the finalization conjunct of C6: a failing inner segment and a
trailing record emitted through the finalization path. -/
theorem C6_finalization_witness :
    generateQuizQuestionsStream ["x---QML_QUIZ_DELIMITER---2".toList] =
      (((["x".toList] : List Str).map trimStr).filter (fun c => !c.isEmpty)).filterMap
          jsonParse ++
        (jsonParse (trimStr "2".toList)).toList :=
  C6_finalization_and_empty_stream.2 ["x---QML_QUIZ_DELIMITER---2".toList]
    ["x".toList] "2".toList (by decide) (by decide) (by decide)

/-- The buffer invariant of claim C8: the consumed text is a prefix of the text
received so far that ends exactly at the last consumed delimiter (or is empty),
and the buffer is the remaining suffix. -/
def BufferInv (text pfx buf : Str) : Prop :=
  pfx ++ buf = text ∧ (pfx = [] ∨ ∃ q, pfx = q ++ DELIMITER)

theorem splitLoop_consumed : ∀ n s, s.length ≤ n →
    ∃ pfx, pfx ++ (splitLoop s).2 = s ∧ (pfx = [] ∨ ∃ q, pfx = q ++ DELIMITER) := by
  intro n
  induction n with
  | zero =>
    intro s hs
    have hnil : s = [] := List.eq_nil_of_length_eq_zero (Nat.le_zero.mp hs)
    subst hnil
    have h0 : splitFirst DELIMITER ([] : Str) = none := by decide
    rw [splitLoop_none h0]
    exact ⟨[], rfl, Or.inl rfl⟩
  | succ n ih =>
    intro s hs
    cases hsp : splitFirst DELIMITER s with
    | none =>
      rw [splitLoop_none hsp]
      exact ⟨[], rfl, Or.inl rfl⟩
    | some p =>
      obtain ⟨b, a⟩ := p
      have hl : a.length < s.length := splitFirst_some_length hsp
      rw [splitLoop_some hsp]
      obtain ⟨pfx, hpfx, hend⟩ := ih a (by omega)
      refine ⟨b ++ DELIMITER ++ pfx, ?_, ?_⟩
      · have hs2 := splitFirst_some hsp
        rw [hs2]
        simp only [List.append_assoc]
        rw [hpfx]
      · rcases hend with rfl | ⟨q, rfl⟩
        · exact Or.inr ⟨b, by simp⟩
        · exact Or.inr ⟨b ++ DELIMITER ++ q, by simp⟩

/-- C8: the buffer always holds exactly the suffix of the concatenation of all
chunks received so far that follows the last consumed delimiter (the whole
concatenation when none was consumed).  First conjunct: the invariant holds at
every between-chunks state, and there the buffer holds no further delimiter.
Second conjunct: appending a chunk preserves the invariant.  Third conjunct:
one delimiter split moves the candidate text plus the delimiter from the
buffer into the consumed prefix, preserving the invariant. -/
theorem C8_buffer_invariant :
    (∀ chunks : List Str, ∃ pfx, BufferInv chunks.flatten pfx (runChunks chunks).2 ∧
        occursIn DELIMITER (runChunks chunks).2 = false) ∧
    (∀ text pfx buf chunk : Str, BufferInv text pfx buf →
        BufferInv (text ++ chunk) pfx (buf ++ chunk)) ∧
    (∀ text pfx buf b a : Str, BufferInv text pfx buf →
        splitFirst DELIMITER buf = some (b, a) →
        BufferInv text (pfx ++ (b ++ DELIMITER)) a) := by
  refine ⟨?_, ?_, ?_⟩
  · intro chunks
    obtain ⟨pfx, hpfx, hend⟩ :=
      splitLoop_consumed chunks.flatten.length chunks.flatten le_rfl
    refine ⟨pfx, ⟨by rw [runChunks_eq]; exact hpfx, hend⟩, ?_⟩
    rw [runChunks_eq]
    unfold occursIn
    rw [splitLoop_buffer_none]
    rfl
  · rintro text pfx buf chunk ⟨heq, hend⟩
    exact ⟨by rw [← heq]; simp, hend⟩
  · rintro text pfx buf b a ⟨heq, hend⟩ hsp
    have hb := splitFirst_some hsp
    constructor
    · rw [← heq, hb]
      simp
    · exact Or.inr ⟨pfx ++ b, by simp⟩

/-- Witness for C8 at concrete states. -/
theorem C8_buffer_invariant_witness :
    (∃ pfx, BufferInv (["ab".toList] : List Str).flatten pfx (runChunks ["ab".toList]).2 ∧
        occursIn DELIMITER (runChunks ["ab".toList]).2 = false) ∧
    BufferInv ("ab".toList ++ "c".toList) [] ("ab".toList ++ "c".toList) ∧
    BufferInv DELIMITER ([] ++ ([] ++ DELIMITER)) [] := by
  refine ⟨C8_buffer_invariant.1 ["ab".toList], ?_, ?_⟩
  · exact C8_buffer_invariant.2.1 "ab".toList [] "ab".toList "c".toList ⟨by simp, Or.inl rfl⟩
  · exact C8_buffer_invariant.2.2 DELIMITER [] DELIMITER [] [] ⟨by simp, Or.inl rfl⟩
      (by decide)

/-- C7: when the stream fails mid-iteration with message `msg`, `startQuiz`'s
catch branch runs; the records received before the failure remain in
`questions` (nothing clears them); if the message contains the invalid-key
marker the consumer enters the credential re-selection path (`isKeySet` is
cleared and the state returns to `idle`, not the generic `error` state),
otherwise the generic error state is entered with the message installed. -/
theorem C7_credential_error_path (st : AppState) (chunks : List Str) (msg : Str) :
    (startQuiz st (innerEmitted chunks) (some msg)).questions = innerEmitted chunks ∧
    (occursIn API_KEY_MARKER msg = true →
      (startQuiz st (innerEmitted chunks) (some msg)).quizState = QuizState.idle ∧
      (startQuiz st (innerEmitted chunks) (some msg)).isKeySet = false ∧
      (startQuiz st (innerEmitted chunks) (some msg)).quizState ≠ QuizState.error) ∧
    (occursIn API_KEY_MARKER msg = false →
      (startQuiz st (innerEmitted chunks) (some msg)).quizState = QuizState.error ∧
      (startQuiz st (innerEmitted chunks) (some msg)).errorMsg = some msg) := by
  refine ⟨?_, ?_, ?_⟩
  · cases h : occursIn API_KEY_MARKER msg with
    | true => simp [startQuiz, h]
    | false => simp [startQuiz, h]
  · intro h
    refine ⟨by simp [startQuiz, h], by simp [startQuiz, h], by simp [startQuiz, h]⟩
  · intro h
    exact ⟨by simp [startQuiz, h], by simp [startQuiz, h]⟩

/-- Witness for C7: a record emitted before an invalid-credential failure is
retained, and the consumer enters the idle/re-selection state. -/
theorem C7_credential_error_path_witness :
    (startQuiz ⟨QuizState.loading, [], 0, 0, none, true⟩
        (innerEmitted ["1---QML_QUIZ_DELIMITER---".toList])
        (some "API key not valid.".toList)).questions =
      innerEmitted ["1---QML_QUIZ_DELIMITER---".toList] ∧
    (startQuiz ⟨QuizState.loading, [], 0, 0, none, true⟩
        (innerEmitted ["1---QML_QUIZ_DELIMITER---".toList])
        (some "API key not valid.".toList)).quizState = QuizState.idle ∧
    (startQuiz ⟨QuizState.loading, [], 0, 0, none, true⟩
        (innerEmitted ["1---QML_QUIZ_DELIMITER---".toList])
        (some "API key not valid.".toList)).isKeySet = false := by
  have h := C7_credential_error_path ⟨QuizState.loading, [], 0, 0, none, true⟩
    ["1---QML_QUIZ_DELIMITER---".toList] "API key not valid.".toList
  have hm : occursIn API_KEY_MARKER "API key not valid.".toList = true := by decide
  exact ⟨h.1, (h.2.1 hm).1, (h.2.1 hm).2.1⟩

/-! ## Claim C9: the answer callback fires at most once per question -/

theorem handleOptionClick_answered {ca : Str} {st : CardState × Nat} {o : Str}
    (h : st.1.isAnswered = true) : handleOptionClick ca st o = st := by
  unfold handleOptionClick
  rw [if_pos h]

theorem processClicks_answered : ∀ (clicks : List Str) (ca : Str) (st : CardState × Nat),
    st.1.isAnswered = true → processClicks ca clicks st = st := by
  intro clicks
  induction clicks with
  | nil => intro ca st _; rfl
  | cons c cs ih =>
    intro ca st h
    show processClicks ca cs (handleOptionClick ca st c) = st
    rw [handleOptionClick_answered h]
    exact ih ca st h

theorem processClicks_initial_cons (ca c : Str) (cs : List Str) (sc : Nat) :
    processClicks ca (c :: cs) (initialCardState, sc) =
      ({ selectedOption := some c, isAnswered := true }, handleAnswer sc (c == ca)) := by
  show processClicks ca cs (handleOptionClick ca (initialCardState, sc) c) = _
  rw [show handleOptionClick ca (initialCardState, sc) c =
      ({ selectedOption := some c, isAnswered := true }, handleAnswer sc (c == ca)) from rfl]
  exact processClicks_answered cs ca _ rfl

theorem processClicks_score_le (ca : Str) (clicks : List Str) (sc : Nat) :
    (processClicks ca clicks (initialCardState, sc)).2 ≤ sc + 1 := by
  cases clicks with
  | nil =>
    show sc ≤ sc + 1
    omega
  | cons c cs =>
    rw [processClicks_initial_cons]
    show handleAnswer sc (c == ca) ≤ sc + 1
    cases hb : (c == ca) <;> simp [handleAnswer, hb]

theorem processClicks_score_mono (ca : Str) (clicks : List Str) {sc sc2 : Nat}
    (h : sc ≤ sc2) :
    (processClicks ca clicks (initialCardState, sc)).2 ≤
      (processClicks ca clicks (initialCardState, sc2)).2 := by
  cases clicks with
  | nil => exact h
  | cons c cs =>
    rw [processClicks_initial_cons, processClicks_initial_cons]
    show handleAnswer sc (c == ca) ≤ handleAnswer sc2 (c == ca)
    cases hb : (c == ca) <;> simp [handleAnswer, hb] <;> omega

theorem runQuiz_mono : ∀ (rounds : List (Str × List Str)) {sc sc2 : Nat}, sc ≤ sc2 →
    runQuiz sc rounds ≤ runQuiz sc2 rounds := by
  intro rounds
  induction rounds with
  | nil => intro sc sc2 h; exact h
  | cons r rest ih =>
    intro sc sc2 h
    show runQuiz ((processClicks r.1 r.2 (initialCardState, sc)).2) rest ≤
      runQuiz ((processClicks r.1 r.2 (initialCardState, sc2)).2) rest
    exact ih (processClicks_score_mono r.1 r.2 h)

theorem runQuiz_le : ∀ (rounds : List (Str × List Str)) (sc : Nat),
    runQuiz sc rounds ≤ sc + (rounds.filter (fun r => !r.2.isEmpty)).length := by
  intro rounds
  induction rounds with
  | nil =>
    intro sc
    show sc ≤ sc + ([] : List (Str × List Str)).length
    simp
  | cons r rest ih =>
    intro sc
    rcases r with ⟨ca, clicks⟩
    cases clicks with
    | nil =>
      rw [List.filter_cons]
      rw [if_neg (by simp)]
      exact ih sc
    | cons c cs =>
      rw [List.filter_cons]
      rw [if_pos (by simp)]
      simp only [List.length_cons]
      have h1 : (processClicks ca (c :: cs) (initialCardState, sc)).2 ≤ sc + 1 :=
        processClicks_score_le ca (c :: cs) sc
      have h2 := runQuiz_mono rest h1
      have h3 := ih (sc + 1)
      show runQuiz ((processClicks ca (c :: cs) (initialCardState, sc)).2) rest ≤
        sc + ((rest.filter (fun r => !r.2.isEmpty)).length + 1)
      omega

/-- C9: a click on an already-answered card changes nothing (selection, flag and
score included); any click leaves the card answered; from the fresh card state
a whole click sequence raises the score by at most 1; over a whole quiz run the
score gain is bounded by the number of questions that received at least one
click (the answered ones). -/
theorem C9_answer_at_most_once :
    (∀ (ca : Str) (st : CardState × Nat) (o : Str), st.1.isAnswered = true →
      handleOptionClick ca st o = st) ∧
    (∀ (ca : Str) (st : CardState × Nat) (o : Str),
      ((handleOptionClick ca st o).1).isAnswered = true) ∧
    (∀ (ca : Str) (clicks : List Str) (sc : Nat),
      (processClicks ca clicks (initialCardState, sc)).2 ≤ sc + 1) ∧
    (∀ (sc : Nat) (rounds : List (Str × List Str)),
      runQuiz sc rounds ≤ sc + (rounds.filter (fun r => !r.2.isEmpty)).length) := by
  refine ⟨?_, ?_, ?_, ?_⟩
  · intro ca st o h
    exact handleOptionClick_answered h
  · intro ca st o
    unfold handleOptionClick
    cases h : st.1.isAnswered with
    | true =>
      rw [if_pos rfl]
      exact h
    | false =>
      rw [if_neg (by simp)]
  · intro ca clicks sc
    exact processClicks_score_le ca clicks sc
  · intro sc rounds
    exact runQuiz_le rounds sc

/-- Witness for C9 at concrete inputs: a second click is a no-op, and a
two-question run with repeated clicks scores at most the number of answered
questions. -/
theorem C9_answer_at_most_once_witness :
    handleOptionClick "A".toList (⟨some "B".toList, true⟩, 3) "A".toList =
      (⟨some "B".toList, true⟩, 3) ∧
    ((handleOptionClick "A".toList ((initialCardState, 0)) "A".toList).1).isAnswered = true ∧
    (processClicks "A".toList ["A".toList, "A".toList] (initialCardState, 0)).2 ≤ 0 + 1 ∧
    runQuiz 0 [("A".toList, ["A".toList, "A".toList]), ("B".toList, [])] ≤
      0 + ([("A".toList, ["A".toList, "A".toList]), ("B".toList, [])].filter
        (fun r => !r.2.isEmpty)).length := by
  refine ⟨?_, ?_, ?_, ?_⟩
  · exact C9_answer_at_most_once.1 "A".toList (⟨some "B".toList, true⟩, 3) "A".toList rfl
  · exact C9_answer_at_most_once.2.1 "A".toList (initialCardState, 0) "A".toList
  · exact C9_answer_at_most_once.2.2.1 "A".toList ["A".toList, "A".toList] 0
  · exact C9_answer_at_most_once.2.2.2 0
      [("A".toList, ["A".toList, "A".toList]), ("B".toList, [])]

/-- C10: the percentage computations are guarded against a zero maximum/total:
with maximum 0 the `ProgressBar` percentage is exactly 0 and with total 0 the
`ScoreSummary` percentage is exactly 0 (the division never runs); with a
positive maximum they equal `value / max * 100` and the rounded
`score / total * 100` respectively. -/
theorem C10_percentage_guards :
    (∀ v : Rat, progressBarPercentage v 0 = 0) ∧
    (∀ v m : Rat, 0 < m → progressBarPercentage v m = v / m * 100) ∧
    (∀ s : Rat, scoreSummaryPercentage s 0 = 0) ∧
    (∀ s t : Rat, 0 < t → scoreSummaryPercentage s t = round (s / t * 100)) := by
  refine ⟨?_, ?_, ?_, ?_⟩
  · intro v
    unfold progressBarPercentage
    rw [if_neg (lt_irrefl 0)]
  · intro v m h
    unfold progressBarPercentage
    rw [if_pos h]
  · intro s
    unfold scoreSummaryPercentage
    rw [if_neg (lt_irrefl 0)]
  · intro s t h
    unfold scoreSummaryPercentage
    rw [if_pos h]

/-- Witness for C10 at concrete values. -/
theorem C10_percentage_guards_witness :
    progressBarPercentage 3 0 = 0 ∧
    progressBarPercentage 3 4 = 3 / 4 * 100 ∧
    scoreSummaryPercentage 1 0 = 0 ∧
    scoreSummaryPercentage 1 8 = round ((1 : Rat) / 8 * 100) :=
  ⟨C10_percentage_guards.1 3,
   C10_percentage_guards.2.1 3 4 (by norm_num),
   C10_percentage_guards.2.2.1 1,
   C10_percentage_guards.2.2.2 1 8 (by norm_num)⟩
